import Mathlib

/-!
Shallow embedding of the `unbounded-interval-tree` Rust crate
(`src/lib.rs`, `src/node.rs`, `src/interval_tree.rs`) and proofs about it.

The key type `K` is an arbitrary linear order, matching the crate's `K: Ord`
requirement.  `Option<Box<Node<K>>>` is embedded as the inductive `Node` with
a `nil` constructor, machine bookkeeping (`usize` size counter) as `Nat`, and
the `rand::random()` coin flips of `remove_random_leaf` as an explicit list of
booleans supplied by the caller.
-/

namespace UIT

/-- Endpoint of an interval: `std::ops::Bound<K>` as used throughout the crate. -/
inductive Bound (K : Type) where
  | Included (x : K)
  | Excluded (x : K)
  | Unbounded
deriving DecidableEq

open Bound

/-- A stored interval: `pub(crate) type Range<K> = (Bound<K>, Bound<K>)` (`src/node.rs`). -/
abbrev Range (K : Type) := Bound K × Bound K

/-- A subtree: `Option<Box<Node<K>>>`, where `Node<K>` (`src/node.rs`) owns
`key: Range<K>`, `value: Bound<K>` (the augmented max end-point), and the two
optional children `left`, `right`.  `nil` is Rust's `None`. -/
inductive Node (K : Type) where
  | nil
  | node (key : Range K) (value : Bound K) (left right : Node K)
deriving DecidableEq

/-- `pub struct IntervalTree<K> { root: Option<Box<Node<K>>>, size: usize }`. -/
structure IntervalTree (K : Type) where
  root : Node K
  size : Nat
deriving DecidableEq

variable {K : Type} [LinearOrder K]

/-- Rust's derived lexicographic `Ord::cmp` on a `(K, i32)` tuple. -/
def cmpProd (a b : K × Nat) : Ordering := (compare a.1 b.1).then (compare a.2 b.2)

/-- Rust's derived lexicographic `PartialOrd::lt` on a `(K, i32)` tuple. -/
def pairLt (a b : K × Nat) : Bool :=
  decide (a.1 < b.1) || (decide (a.1 = b.1) && decide (a.2 < b.2))

/-- Upper-bound (end-bound) encoding used by `cmp_endbound` and
`maybe_update_value`: `Included(x) ↦ (x, 2)`, `Excluded(x) ↦ (x, 1)`,
`Unbounded ↦ None`. -/
def encUp : Bound K → Option (K × Nat)
  | Included x => some (x, 2)
  | Excluded x => some (x, 1)
  | Unbounded => none

/-- Lower-bound encoding used by `cmp` (`src/interval_tree.rs` 826-835):
`Included(x) ↦ (x, 1)`, `Excluded(x) ↦ (x, 2)`, `Unbounded ↦ None`. -/
def encLo : Bound K → Option (K × Nat)
  | Included x => some (x, 1)
  | Excluded x => some (x, 2)
  | Unbounded => none

/-- Lower-bound encoding used by `get_interval_overlaps_rec` for `q.min` and
`node.min`: `Included(x) ↦ (x, 2)`, `Excluded(x) ↦ (x, 3)`, `Unbounded ↦ None`. -/
def encLo3 : Bound K → Option (K × Nat)
  | Included x => some (x, 2)
  | Excluded x => some (x, 3)
  | Unbounded => none

/-- Comparison of two `Option`-encoded bounds where `None` (= `Unbounded` in the
upper role) is the greatest element; `Some`s compare lexicographically. -/
def cmpOptHi : Option (K × Nat) → Option (K × Nat) → Ordering
  | none, none => .eq
  | none, some _ => .gt
  | some _, none => .lt
  | some a, some b => cmpProd a b

/-- Comparison of two `Option`-encoded bounds where `None` (= `Unbounded` in the
lower role) is the least element. -/
def cmpOptLo : Option (K × Nat) → Option (K × Nat) → Ordering
  | none, none => .eq
  | none, some _ => .lt
  | some _, none => .gt
  | some a, some b => cmpProd a b

/-- `IntervalTree::cmp_endbound` (`src/interval_tree.rs` 855-879): total order
on upper bounds, `Unbounded` greatest, `Included(x) > Excluded(x)`. -/
def cmp_endbound (e1 e2 : Bound K) : Ordering := cmpOptHi (encUp e1) (encUp e2)

/-- The lower-bound half of `IntervalTree::cmp` (`src/interval_tree.rs`
826-848): total order on lower bounds, `Unbounded` least,
`Included(x) < Excluded(x)`. -/
def cmp_lowbound (e1 e2 : Bound K) : Ordering := cmpOptLo (encLo e1) (encLo e2)

/-- `IntervalTree::cmp` (`src/interval_tree.rs` 812-853): Range order — compare
lower bounds (lower-role encoding) first, tie-break with `cmp_endbound`. -/
def cmpRange (r1 r2 : Range K) : Ordering :=
  match cmp_lowbound r1.1 r2.1 with
  | .eq => cmp_endbound r1.2 r2.2
  | o => o

/-- `Node::new` (`src/node.rs` 74-86): a fresh leaf whose augmented value is its
own upper bound. -/
def Node.new (range : Range K) : Node K := .node range range.2 .nil .nil

/-- `Node::is_leaf` (`src/node.rs` 88-90). -/
def Node.is_leaf : Node K → Bool
  | .node _ _ .nil .nil => true
  | _ => false

/-- `Node::maybe_update_value` (`src/node.rs` 92-115): absorb an inserted upper
bound into the augmented max, using the upper-role encoding. -/
def maybe_update_value (value inserted_max : Bound K) : Bound K :=
  match encUp value, encUp inserted_max with
  | none, _ => value
  | some _, none => Unbounded
  | some s, some i => if pairLt s i then inserted_max else value

/-- The descent loop of `IntervalTree::insert` (`src/interval_tree.rs` 148-190):
refresh the augmentation at every visited node, then descend by `cmp`;
`Equal` stops without inserting, new nodes attach as leaves.  The `nil` case
covers both the empty-root case and attaching at a missing child. -/
def insertNode (range : Range K) : Node K → Node K
  | .nil => Node.new range
  | .node key value l r =>
    let value := maybe_update_value value range.2
    match cmpRange key range with
    | .eq => .node key value l r
    | .lt => .node key value l (insertNode range r)
    | .gt => .node key value (insertNode range l) r

/-- `IntervalTree::insert`: `size` is incremented unconditionally, before the
duplicate check in the descent. -/
def insert (t : IntervalTree K) (range : Range K) : IntervalTree K :=
  { root := insertNode range t.root, size := t.size + 1 }

/-- Inorder list of the keys stored in a subtree. -/
def inorder : Node K → List (Range K)
  | .nil => []
  | .node key _ l r => inorder l ++ key :: inorder r

/-- Number of nodes in a subtree. -/
def sizeN : Node K → Nat
  | .nil => 0
  | .node _ _ l r => sizeN l + sizeN r + 1

/-- Guard `max_subtree < min_q` of `get_interval_overlaps_rec`
(`src/interval_tree.rs` 512-525), also reused at 573-582 as `max_node < min_q`:
the upper bound `e` (encoded `Included ↦ 2 / Excluded ↦ 1`) is strictly below
the query lower bound `lo` (encoded `Included ↦ 2 / Excluded ↦ 3`);
`Unbounded` on either side makes the guard false. -/
def max_lt_min (e lo : Bound K) : Bool :=
  match encUp e, encLo3 lo with
  | some a, some b => pairLt a b
  | _, _ => false

/-- Guard `min_node > max_q` of `get_interval_overlaps_rec`
(`src/interval_tree.rs` 549-563): the node lower bound (encoded
`Included ↦ 2 / Excluded ↦ 3`) is strictly above the query upper bound
(encoded `Included ↦ 2 / Excluded ↦ 1`). -/
def min_gt_max (lo e : Bound K) : Bool :=
  match encLo3 lo, encUp e with
  | some a, some b => pairLt b a
  | _, _ => false

/-- `IntervalTree::get_interval_overlaps_rec` (`src/interval_tree.rs` 486-588):
prune a subtree whose augmented max is below the query's lower bound; recurse
left; skip the node and the whole right subtree when `node.min > q.max`;
otherwise push the node unless `node.max < q.min`, then recurse right. -/
def get_interval_overlaps_rec (q : Range K) : Node K → List (Range K) → List (Range K)
  | .nil, acc => acc
  | .node key value l r, acc =>
    if max_lt_min value q.1 then acc
    else
      let acc1 := get_interval_overlaps_rec q l acc
      if min_gt_max key.1 q.2 then acc1
      else
        get_interval_overlaps_rec q r (if max_lt_min key.2 q.1 then acc1 else acc1 ++ [key])

/-- `IntervalTree::get_interval_overlaps` (`src/interval_tree.rs` 305-316). -/
def get_interval_overlaps (t : IntervalTree K) (q : Range K) : List (Range K) :=
  get_interval_overlaps_rec q t.root []

/-- First gap of `get_interval_difference` (`src/interval_tree.rs` 374-391):
the part of the query before the first overlap's lower bound, with the
inclusivity flag flipped on the overlap side. -/
def leadGap (qmin fmin : Bound K) : List (Range K) :=
  match qmin, fmin with
  | Unbounded, Included fm => [(Unbounded, Excluded fm)]
  | Unbounded, Excluded fm => [(Unbounded, Included fm)]
  | Included qm, Included fm => if qm < fm then [(Included qm, Excluded fm)] else []
  | Excluded qm, Included fm => if qm < fm then [(Excluded qm, Excluded fm)] else []
  | Excluded qm, Excluded fm => if qm < fm then [(Excluded qm, Included fm)] else []
  | Included qm, Excluded fm => if qm ≤ fm then [(Included qm, Included fm)] else []
  | _, _ => []

/-- Gap emission step of the overlap loop of `get_interval_difference`
(`src/interval_tree.rs` 407-445): a gap between the running contiguous upper
bound and the next overlap's lower bound, with inclusivity flags inverted;
note the `<=` guard in the `Excluded`/`Excluded` arm. -/
def gapArm (contiguous omin : Bound K) : Option (Range K) :=
  match contiguous, omin with
  | Included cm, Included om => if cm < om then some (Excluded cm, Excluded om) else none
  | Included cm, Excluded om => if cm < om then some (Excluded cm, Included om) else none
  | Excluded cm, Included om => if cm < om then some (Included cm, Excluded om) else none
  | Excluded cm, Excluded om => if cm ≤ om then some (Included cm, Included om) else none
  | _, _ => none

/-- Contiguous-maximum extension step of the overlap loop
(`src/interval_tree.rs` 447-463): `none` signals the early `return acc` on an
`Unbounded` overlap upper bound. -/
def extendArm (contiguous omax : Bound K) : Option (Bound K) :=
  match contiguous, omax with
  | _, Unbounded => none
  | Included cm, Included om => some (if cm < om then Included om else Included cm)
  | Excluded cm, Excluded om => some (if cm < om then Excluded om else Excluded cm)
  | Included cm, Excluded om => some (if cm < om then Excluded om else Included cm)
  | Excluded cm, Included om => some (if cm ≤ om then Included om else Excluded cm)
  | c, _ => some c

/-- The `for overlap in overlaps.iter().skip(1)` loop of
`get_interval_difference` (`src/interval_tree.rs` 398-464); the `Bool` in the
result records the early `return acc`. -/
def diffLoop : List (Range K) → List (Range K) → Bound K → List (Range K) × Bound K × Bool
  | [], acc, contiguous => (acc, contiguous, false)
  | overlap :: rest, acc, contiguous =>
    let state :=
      match gapArm contiguous overlap.1 with
      | some g => (acc ++ [g], overlap.2)
      | none => (acc, contiguous)
    match extendArm state.2 overlap.2 with
    | none => (state.1, state.2, true)
    | some c => diffLoop rest state.1 c

/-- Trailing gap of `get_interval_difference` (`src/interval_tree.rs` 466-481):
the part of the query after the last contiguous upper bound. -/
def trailGap (contiguous qmax : Bound K) : List (Range K) :=
  match contiguous, qmax with
  | Included cm, Included qm => if cm < qm then [(Excluded cm, Included qm)] else []
  | Included cm, Excluded qm => if cm < qm then [(Excluded cm, Excluded qm)] else []
  | Excluded cm, Excluded qm => if cm < qm then [(Included cm, Excluded qm)] else []
  | Excluded cm, Included qm => if cm ≤ qm then [(Included cm, Included qm)] else []
  | _, _ => []

/-- `IntervalTree::get_interval_difference` (`src/interval_tree.rs` 348-484). -/
def get_interval_difference (t : IntervalTree K) (q : Range K) : List (Range K) :=
  match get_interval_overlaps t q with
  | [] => [q]
  | first :: rest =>
    let acc := leadGap q.1 first.1
    if first.2 = Unbounded then acc
    else
      match diffLoop rest acc first.2 with
      | (acc, _, true) => acc
      | (acc, contiguous, false) => acc ++ trailGap contiguous q.2

/-- `IntervalTree::contains_interval` (`src/interval_tree.rs` 275-282). -/
def contains_interval (t : IntervalTree K) (q : Range K) : Bool :=
  (get_interval_difference t q).isEmpty

/-- `IntervalTree::contains_point` (`src/interval_tree.rs` 227-233). -/
def contains_point (t : IntervalTree K) (p : K) : Bool :=
  contains_interval t (Included p, Included p)

/-- `IntervalTree::len` (`src/interval_tree.rs` 768-770). -/
def len (t : IntervalTree K) : Nat := t.size

/-- `IntervalTree::is_empty` (`src/interval_tree.rs` 788-790). -/
def is_empty (t : IntervalTree K) : Bool := decide (len t = 0)

/-- Default key returned in unreachable branches of the removal embedding. -/
def dummyRange : Range K := (Unbounded, Unbounded)

/-- Key of a node (`dummyRange` for `nil`, never used on `nil`). -/
def Node.keyD : Node K → Range K
  | .nil => dummyRange
  | .node key _ _ _ => key

/-- `max_other` computation of `remove_random_leaf`
(`src/interval_tree.rs` 686-694 and 710-718): the upper bound the current node
would hold if its chosen subtree vanished — the greater (by `cmp_endbound`) of
the node's own end bound and the other child's augmented value. -/
def max_other_of (curr_end : Bound K) (other : Node K) : Bound K :=
  match other with
  | .nil => curr_end
  | .node _ ov _ _ =>
    match cmp_endbound curr_end ov with
    | .lt => ov
    | _ => curr_end

/-- One step of the bubble-up loop of `remove_random_leaf`
(`src/interval_tree.rs` 736-746), applied to an ancestor's stored `value` and
recorded `max_other`.  Returns the new value and whether the loop `break`s.
The `Less` arm is the source's `unreachable!` panic, embedded as a no-op. -/
def unwindStep (value max_other new_max : Bound K) : Bound K × Bool :=
  if cmp_endbound value max_other = .eq then (value, true)
  else
    match cmp_endbound value new_max with
    | .eq => (value, true)
    | .gt => (new_max, false)
    | .lt => (value, false)

/-- The descent-and-unwind of `remove_random_leaf` (`src/interval_tree.rs`
651-746) on an internal (non-leaf) node, with the `rand::random()` coin flips
supplied as `coins` (`true` = `LEFT`), one consumed per two-children node.
Returns the new subtree, the deleted leaf's key, `new_max`, and whether the
bubble-up loop has stopped.  The descent direction is `RIGHT` when `left` is
missing, `LEFT` when `right` is missing, otherwise by coin; when the chosen
child is a leaf it is detached and the current node's value becomes
`max_other`; otherwise the step recurses and then applies `unwindStep`. -/
def removeAux (coins : List Bool) : Node K → Node K × Range K × Bound K × Bool
  | .nil => (.nil, dummyRange, Unbounded, true)
  | .node key value l r =>
    let goLeft : Bool :=
      match l, r with
      | .nil, _ => false
      | _, .nil => true
      | _, _ => coins.headD true
    let coins' : List Bool :=
      match l, r with
      | .nil, _ => coins
      | _, .nil => coins
      | _, _ => coins.tail
    let curr_end := key.2
    if goLeft then
      let mo := max_other_of curr_end r
      if l.is_leaf then (.node key mo .nil r, l.keyD, mo, false)
      else
        match removeAux coins' l with
        | (l', del, new_max, true) => (.node key value l' r, del, new_max, true)
        | (l', del, new_max, false) =>
          let s := unwindStep value mo new_max
          (.node key s.1 l' r, del, new_max, s.2)
    else
      let mo := max_other_of curr_end l
      if r.is_leaf then (.node key mo l .nil, r.keyD, mo, false)
      else
        match removeAux coins' r with
        | (r', del, new_max, true) => (.node key value l r', del, new_max, true)
        | (r', del, new_max, false) =>
          let s := unwindStep value mo new_max
          (.node key s.1 l r', del, new_max, s.2)

/-- `IntervalTree::remove_random_leaf` (`src/interval_tree.rs` 621-749):
`None` on an empty tree; a single-node tree is emptied directly; otherwise the
descent of `removeAux` removes a leaf and repairs augmented values on the way
back up.  `size` is decremented whenever the tree is non-empty. -/
def remove_random_leaf (coins : List Bool) (t : IntervalTree K) :
    Option (Range K) × IntervalTree K :=
  match t.root with
  | .nil => (none, t)
  | .node key value l r =>
    match l, r with
    | .nil, .nil => (some key, ⟨.nil, t.size - 1⟩)
    | _, _ =>
      let res := removeAux coins (.node key value l r)
      (some res.2.1, ⟨res.1, t.size - 1⟩)

/-- `IntervalTreeIter` (`src/interval_tree.rs` 883-886): explicit stack of
visited-but-not-yet-yielded nodes plus a current pointer. -/
structure IntervalTreeIter (K : Type) where
  to_visit : List (Node K)
  curr : Node K

/-- The `while self.curr.is_some()` loop of `IntervalTreeIter::next`
(`src/interval_tree.rs` 896-899): push the left spine onto the stack. -/
def pushLeftSpine : Node K → List (Node K) → List (Node K)
  | .nil, st => st
  | .node key value l r, st => pushLeftSpine l (.node key value l r :: st)

/-- `IntervalTreeIter::next` (`src/interval_tree.rs` 891-904): push the left
spine, pop a node, yield its key, continue from its right child.  The
`nil`-on-stack case never occurs. -/
def IntervalTreeIter.next (it : IntervalTreeIter K) :
    Option (Range K × IntervalTreeIter K) :=
  match pushLeftSpine it.curr it.to_visit with
  | [] => none
  | .nil :: _ => none
  | .node key _ _ r :: rest => some (key, ⟨rest, r⟩)

/-- Run the iterator for at most `fuel` steps, collecting the yielded keys. -/
def iterFuel : Nat → IntervalTreeIter K → List (Range K)
  | 0, _ => []
  | fuel + 1, it =>
    match it.next with
    | none => []
    | some (key, it') => key :: iterFuel fuel it'

/-- `IntervalTree::iter` run to exhaustion: the iterator starts with an empty
stack and `curr` at the root (`src/interval_tree.rs` 120-125), and yields one
key per node, so `sizeN` steps exhaust it. -/
def iterAll (t : IntervalTree K) : List (Range K) :=
  iterFuel (sizeN t.root) ⟨[], t.root⟩

/-- Max of two upper bounds under `cmp_endbound` (first argument on ties). -/
def maxE (a b : Bound K) : Bound K := if cmp_endbound a b = .lt then b else a

/-- Augmented value contributed by an optional child: absent children
contribute nothing. -/
def valOr (m : Bound K) : Node K → Bound K
  | .nil => m
  | .node _ v _ _ => maxE m v

/-- The §3 augmentation invariant, local form: every node's `value` is the max
(upper-role order) of its own upper bound and its children's `value`s. -/
def goodValB : Node K → Bool
  | .nil => true
  | .node key value l r =>
    decide (value = valOr (valOr key.2 l) r) && goodValB l && goodValB r

/-- The §3 BST invariant: all left keys compare `Less`, all right keys
`Greater`, under the Range order. -/
def bstB : Node K → Bool
  | .nil => true
  | .node key _ l r =>
    (inorder l).all (fun x => decide (cmpRange x key = .lt)) &&
    (inorder r).all (fun y => decide (cmpRange y key = .gt)) &&
    bstB l && bstB r

/-- Upper bounds of all keys stored in a subtree. -/
def uppersList : Node K → List (Bound K)
  | .nil => []
  | .node key _ l r => uppersList l ++ key.2 :: uppersList r

/-- Semantic form of the augmentation invariant: every node's `value` is the
true maximum (upper-role order) over its own key's upper bound and all upper
bounds in its subtree. -/
def trueMaxB : Node K → Bool
  | .nil => true
  | .node key value l r =>
    decide (value = (uppersList l ++ uppersList r).foldl maxE key.2) &&
    trueMaxB l && trueMaxB r

/-- §4.1 encoding, lower bound vs upper bound: `lo ≤ hi` on the real line with
infinitesimals (`Excluded` lower = value + ε, `Excluded` upper = value − ε,
`Unbounded` = ∓∞). -/
def lowLeUp : Bound K → Bound K → Prop
  | Unbounded, _ => True
  | _, Unbounded => True
  | Included x, Included y => x ≤ y
  | Included x, Excluded y => x < y
  | Excluded x, Included y => x < y
  | Excluded x, Excluded y => x < y

instance (a b : Bound K) : Decidable (lowLeUp a b) := by
  unfold lowLeUp; cases a <;> cases b <;> infer_instance

/-- A stored range `k` intersects the query `q` non-emptily under the §4.1
encoding: `k.lower ≤ q.upper` and `q.lower ≤ k.upper`. -/
def overlapSpec (k q : Range K) : Prop := lowLeUp k.1 q.2 ∧ lowLeUp q.1 k.2

instance (k q : Range K) : Decidable (overlapSpec k q) := by
  unfold overlapSpec; infer_instance

end UIT

namespace UIT

open Bound

variable {K : Type} [LinearOrder K]

/-! ### Order facts about the tuple encodings -/

/-- Lexicographic strict order on the `(value, tag)` pairs. -/
def lexLt (a b : K × Nat) : Prop := a.1 < b.1 ∨ (a.1 = b.1 ∧ a.2 < b.2)

theorem pairLt_iff {a b : K × Nat} : pairLt a b = true ↔ lexLt a b := by
  simp [pairLt, lexLt]

theorem cmpProd_eq_lt {a b : K × Nat} : cmpProd a b = .lt ↔ lexLt a b := by
  unfold cmpProd lexLt
  rcases lt_trichotomy a.1 b.1 with h | h | h
  · simp [compare_lt_iff_lt.2 h, Ordering.then, h]
  · rw [compare_eq_iff_eq.2 h]
    simp [Ordering.then, compare_lt_iff_lt, h, lt_irrefl]
  · simp [compare_gt_iff_gt.2 h, Ordering.then, h.asymm, h.ne']

theorem cmpProd_eq_gt {a b : K × Nat} : cmpProd a b = .gt ↔ lexLt b a := by
  unfold cmpProd lexLt
  rcases lt_trichotomy a.1 b.1 with h | h | h
  · simp [compare_lt_iff_lt.2 h, Ordering.then, h.asymm, h.ne']
  · rw [compare_eq_iff_eq.2 h]
    simp [Ordering.then, compare_gt_iff_gt, h, lt_irrefl]
  · simp [compare_gt_iff_gt.2 h, Ordering.then, h]

theorem cmpProd_eq_eq {a b : K × Nat} : cmpProd a b = .eq ↔ a = b := by
  unfold cmpProd
  rcases lt_trichotomy a.1 b.1 with h | h | h
  · simp [compare_lt_iff_lt.2 h, Ordering.then]
    exact fun hab => absurd (congrArg Prod.fst hab) h.ne
  · simp [compare_eq_iff_eq.2 h, Ordering.then, compare_eq_iff_eq]
    constructor
    · exact fun h2 => Prod.ext h h2
    · exact fun hab => congrArg Prod.snd hab
  · simp [compare_gt_iff_gt.2 h, Ordering.then]
    exact fun hab => absurd (congrArg Prod.fst hab) h.ne'

theorem lexLt_trans {a b c : K × Nat} (h1 : lexLt a b) (h2 : lexLt b c) : lexLt a c := by
  rcases h1 with h1 | ⟨h1, h1'⟩ <;> rcases h2 with h2 | ⟨h2, h2'⟩
  · exact Or.inl (h1.trans h2)
  · exact Or.inl (h2 ▸ h1)
  · exact Or.inl (h1 ▸ h2)
  · exact Or.inr ⟨h1.trans h2, h1'.trans h2'⟩

theorem lexLt_irrefl (a : K × Nat) : ¬ lexLt a a := by
  rintro (h | ⟨-, h⟩) <;> exact lt_irrefl _ h

theorem lexLt_total {a b : K × Nat} (h1 : ¬ lexLt a b) (h2 : ¬ lexLt b a) : a = b := by
  rcases lt_trichotomy a.1 b.1 with h | h | h
  · exact absurd (Or.inl h) h1
  · rcases lt_trichotomy a.2 b.2 with h' | h' | h'
    · exact absurd (Or.inr ⟨h, h'⟩) h1
    · exact Prod.ext h h'
    · exact absurd (Or.inr ⟨h.symm, h'⟩) h2
  · exact absurd (Or.inl h) h2

theorem lexLt_of_not_lt_of_lt {a b c : K × Nat} (h1 : ¬ lexLt b a) (h2 : lexLt b c) :
    lexLt a c := by
  by_cases h : lexLt a b
  · exact lexLt_trans h h2
  · exact lexLt_total h h1 ▸ h2

theorem lexLt_of_lt_of_not_lt {a b c : K × Nat} (h1 : lexLt a b) (h2 : ¬ lexLt c b) :
    lexLt a c := by
  by_cases h : lexLt b c
  · exact lexLt_trans h1 h
  · exact lexLt_total h h2 ▸ h1

end UIT

namespace UIT

open Bound

variable {K : Type} [LinearOrder K]

/-! ### Order packages for `cmp_endbound`, `cmp_lowbound` and `cmpRange` -/

theorem encUp_inj {a b : Bound K} (h : encUp a = encUp b) : a = b := by
  cases a <;> cases b <;> simp_all [encUp]

theorem encLo_inj {a b : Bound K} (h : encLo a = encLo b) : a = b := by
  cases a <;> cases b <;> simp_all [encLo]

/-- Strict order on upper bounds described by `cmp_endbound`. -/
def upLt (a b : Bound K) : Prop :=
  match encUp a, encUp b with
  | some a', some b' => lexLt a' b'
  | some _, none => True
  | none, _ => False

theorem cmpE_lt_iff {a b : Bound K} : cmp_endbound a b = .lt ↔ upLt a b := by
  unfold cmp_endbound cmpOptHi upLt
  cases ha : encUp a <;> cases hb : encUp b <;> simp [cmpProd_eq_lt]

theorem cmpE_gt_iff {a b : Bound K} : cmp_endbound a b = .gt ↔ upLt b a := by
  unfold cmp_endbound cmpOptHi upLt
  cases ha : encUp a <;> cases hb : encUp b <;> simp [cmpProd_eq_gt]

theorem cmpE_eq_iff {a b : Bound K} : cmp_endbound a b = .eq ↔ a = b := by
  unfold cmp_endbound cmpOptHi
  cases ha : encUp a <;> cases hb : encUp b <;>
    simp [cmpProd_eq_eq]
  · exact encUp_inj (ha.trans hb.symm)
  · intro h; subst h; rw [ha] at hb; exact (Option.noConfusion hb)
  · intro h; subst h; rw [ha] at hb; exact (Option.noConfusion hb)
  · constructor
    · intro h; exact encUp_inj (by rw [ha, hb, h])
    · intro h; subst h; rw [ha] at hb; exact (Option.some.injEq _ _ ▸ hb).symm ▸ rfl

theorem upLt_trans {a b c : Bound K} (h1 : upLt a b) (h2 : upLt b c) : upLt a c := by
  unfold upLt at *
  cases ha : encUp a <;> cases hb : encUp b <;> cases hc : encUp c <;>
    simp_all
  exact lexLt_trans h1 h2

theorem upLt_irrefl (a : Bound K) : ¬ upLt a a := by
  unfold upLt
  cases h : encUp a <;> simp
  exact lexLt_irrefl _

theorem upLt_total {a b : Bound K} (h1 : ¬ upLt a b) (h2 : ¬ upLt b a) : a = b := by
  apply encUp_inj
  unfold upLt at *
  cases ha : encUp a <;> cases hb : encUp b <;> simp_all
  exact lexLt_total h1 h2

theorem cmpE_self (a : Bound K) : cmp_endbound a a = .eq := cmpE_eq_iff.2 rfl

/-- Weak order on upper bounds: `cmp_endbound a b ≠ .gt`. -/
def upLe (a b : Bound K) : Prop := cmp_endbound a b ≠ .gt

theorem upLe_iff {a b : Bound K} : upLe a b ↔ ¬ upLt b a := not_congr cmpE_gt_iff

theorem upLt_of_le_of_lt {a b c : Bound K} (h1 : upLe a b) (h2 : upLt b c) : upLt a c := by
  rw [upLe_iff] at h1
  by_cases h : upLt a b
  · exact upLt_trans h h2
  · exact upLt_total h h1 ▸ h2

theorem upLt_of_lt_of_le {a b c : Bound K} (h1 : upLt a b) (h2 : upLe b c) : upLt a c := by
  rw [upLe_iff] at h2
  by_cases h : upLt b c
  · exact upLt_trans h1 h
  · exact upLt_total h h2 ▸ h1

theorem upLe_trans {a b c : Bound K} (h1 : upLe a b) (h2 : upLe b c) : upLe a c := by
  rw [upLe_iff] at h2 ⊢
  intro h
  exact h2 (upLt_of_lt_of_le h h1)

/-- Strict order on lower bounds described by `cmp_lowbound`. -/
def loLt (a b : Bound K) : Prop :=
  match encLo a, encLo b with
  | some a', some b' => lexLt a' b'
  | none, some _ => True
  | _, none => False

theorem cmpL_lt_iff {a b : Bound K} : cmp_lowbound a b = .lt ↔ loLt a b := by
  unfold cmp_lowbound cmpOptLo loLt
  cases ha : encLo a <;> cases hb : encLo b <;> simp [cmpProd_eq_lt]

theorem cmpL_gt_iff {a b : Bound K} : cmp_lowbound a b = .gt ↔ loLt b a := by
  unfold cmp_lowbound cmpOptLo loLt
  cases ha : encLo a <;> cases hb : encLo b <;> simp [cmpProd_eq_gt]

theorem cmpL_eq_iff {a b : Bound K} : cmp_lowbound a b = .eq ↔ a = b := by
  unfold cmp_lowbound cmpOptLo
  cases ha : encLo a <;> cases hb : encLo b <;>
    simp [cmpProd_eq_eq]
  · exact encLo_inj (ha.trans hb.symm)
  · intro h; subst h; rw [ha] at hb; exact (Option.noConfusion hb)
  · intro h; subst h; rw [ha] at hb; exact (Option.noConfusion hb)
  · constructor
    · intro h; exact encLo_inj (by rw [ha, hb, h])
    · intro h; subst h; rw [ha] at hb; exact (Option.some.injEq _ _ ▸ hb).symm ▸ rfl

theorem loLt_trans {a b c : Bound K} (h1 : loLt a b) (h2 : loLt b c) : loLt a c := by
  unfold loLt at *
  cases ha : encLo a <;> cases hb : encLo b <;> cases hc : encLo c <;>
    simp_all
  exact lexLt_trans h1 h2

theorem loLt_total {a b : Bound K} (h1 : ¬ loLt a b) (h2 : ¬ loLt b a) : a = b := by
  apply encLo_inj
  unfold loLt at *
  cases ha : encLo a <;> cases hb : encLo b <;> simp_all
  exact lexLt_total h1 h2

/-- Weak order on lower bounds: `cmp_lowbound a b ≠ .gt`. -/
def loLe (a b : Bound K) : Prop := cmp_lowbound a b ≠ .gt

theorem loLe_iff {a b : Bound K} : loLe a b ↔ ¬ loLt b a := not_congr cmpL_gt_iff

theorem loLt_of_le_of_lt {a b c : Bound K} (h1 : loLe a b) (h2 : loLt b c) : loLt a c := by
  rw [loLe_iff] at h1
  by_cases h : loLt a b
  · exact loLt_trans h h2
  · exact loLt_total h h1 ▸ h2

end UIT

namespace UIT

open Bound

variable {K : Type} [LinearOrder K]

theorem loLt_irrefl (a : Bound K) : ¬ loLt a a := by
  unfold loLt
  cases h : encLo a <;> simp
  exact lexLt_irrefl _

theorem loLt_asymm {a b : Bound K} (h1 : loLt a b) : ¬ loLt b a :=
  fun h2 => loLt_irrefl _ (loLt_trans h1 h2)

theorem upLt_asymm {a b : Bound K} (h1 : upLt a b) : ¬ upLt b a :=
  fun h2 => upLt_irrefl _ (upLt_trans h1 h2)

theorem cmpRange_lt_iff {r1 r2 : Range K} :
    cmpRange r1 r2 = .lt ↔ loLt r1.1 r2.1 ∨ (r1.1 = r2.1 ∧ upLt r1.2 r2.2) := by
  unfold cmpRange
  cases hl : cmp_lowbound r1.1 r2.1 with
  | lt => simp [cmpL_lt_iff.1 hl]
  | eq =>
    have h1 : r1.1 = r2.1 := cmpL_eq_iff.1 hl
    simp [h1, loLt_irrefl, cmpE_lt_iff]
  | gt =>
    have hg := cmpL_gt_iff.1 hl
    simp
    exact ⟨fun h => loLt_asymm h hg, fun h _ => loLt_irrefl _ (h ▸ hg)⟩

theorem cmpRange_gt_char {r1 r2 : Range K} :
    cmpRange r1 r2 = .gt ↔ loLt r2.1 r1.1 ∨ (r1.1 = r2.1 ∧ upLt r2.2 r1.2) := by
  unfold cmpRange
  cases hl : cmp_lowbound r1.1 r2.1 with
  | lt =>
    have hg := cmpL_lt_iff.1 hl
    simp
    exact ⟨fun h => loLt_asymm h hg, fun h _ => loLt_irrefl _ (h ▸ hg)⟩
  | eq =>
    have h1 : r1.1 = r2.1 := cmpL_eq_iff.1 hl
    simp [h1, loLt_irrefl, cmpE_gt_iff]
  | gt => simp [cmpL_gt_iff.1 hl]

theorem cmpRange_gt_iff {r1 r2 : Range K} : cmpRange r1 r2 = .gt ↔ cmpRange r2 r1 = .lt := by
  rw [cmpRange_gt_char, cmpRange_lt_iff, eq_comm]

theorem cmpRange_eq_iff {r1 r2 : Range K} : cmpRange r1 r2 = .eq ↔ r1 = r2 := by
  unfold cmpRange
  cases hl : cmp_lowbound r1.1 r2.1 with
  | lt =>
    simp
    intro h
    exact loLt_irrefl _ (h ▸ cmpL_lt_iff.1 hl)
  | eq =>
    have h1 : r1.1 = r2.1 := cmpL_eq_iff.1 hl
    simp [cmpE_eq_iff]
    constructor
    · exact fun h2 => Prod.ext h1 h2
    · exact fun h2 => congrArg Prod.snd h2
  | gt =>
    simp
    intro h
    exact loLt_irrefl _ (h ▸ cmpL_gt_iff.1 hl)

theorem cmpRange_self (r : Range K) : cmpRange r r = .eq := cmpRange_eq_iff.2 rfl

theorem cmpRange_lt_trans {a b c : Range K} (h1 : cmpRange a b = .lt)
    (h2 : cmpRange b c = .lt) : cmpRange a c = .lt := by
  rw [cmpRange_lt_iff] at h1 h2 ⊢
  rcases h1 with h1 | ⟨h1, h1'⟩ <;> rcases h2 with h2 | ⟨h2, h2'⟩
  · exact Or.inl (loLt_trans h1 h2)
  · exact Or.inl (h2 ▸ h1)
  · exact Or.inl (h1 ▸ h2)
  · exact Or.inr ⟨h1.trans h2, upLt_trans h1' h2'⟩

end UIT

namespace UIT

open Bound

variable {K : Type} [LinearOrder K]

/-! ### `maybe_update_value` is the max for the upper-bound order -/

theorem maybe_update_eq_maxE (v i : Bound K) : maybe_update_value v i = maxE v i := by
  unfold maybe_update_value maxE cmp_endbound cmpOptHi
  cases hv : encUp v <;> cases hi : encUp i
  · simp
  · simp
  · cases i <;> simp_all [encUp]
  · rename_i s t
    show (if pairLt s t = true then i else v) = if cmpProd s t = Ordering.lt then i else v
    by_cases h : lexLt s t
    · rw [if_pos (pairLt_iff.2 h), if_pos (cmpProd_eq_lt.2 h)]
    · rw [if_neg (fun hc => h (pairLt_iff.1 hc)), if_neg (fun hc => h (cmpProd_eq_lt.1 hc))]

theorem upLe_refl (a : Bound K) : upLe a a := by
  rw [upLe_iff]; exact upLt_irrefl a

theorem upLe_antisymm {a b : Bound K} (h1 : upLe a b) (h2 : upLe b a) : a = b :=
  upLt_total (upLe_iff.1 h2) (upLe_iff.1 h1)

theorem upLe_maxE_left (a b : Bound K) : upLe a (maxE a b) := by
  unfold maxE
  by_cases h : cmp_endbound a b = .lt
  · rw [if_pos h, upLe_iff]
    exact upLt_asymm (cmpE_lt_iff.1 h)
  · rw [if_neg h]
    exact upLe_refl a

theorem upLe_maxE_right (a b : Bound K) : upLe b (maxE a b) := by
  unfold maxE
  by_cases h : cmp_endbound a b = .lt
  · rw [if_pos h]
    exact upLe_refl b
  · rw [if_neg h, upLe_iff]
    rw [cmpE_lt_iff] at h
    exact h

theorem maxE_eq_left {a b : Bound K} (h : upLe b a) : maxE a b = a := by
  unfold maxE
  rw [if_neg]
  rw [cmpE_lt_iff]
  exact upLe_iff.1 h

theorem maxE_choice (a b : Bound K) : maxE a b = a ∨ maxE a b = b := by
  unfold maxE
  by_cases h : cmp_endbound a b = .lt
  · exact Or.inr (if_pos h)
  · exact Or.inl (if_neg h)

theorem maxE_upLe_iff {a b c : Bound K} : upLe (maxE a b) c ↔ upLe a c ∧ upLe b c := by
  constructor
  · intro h
    exact ⟨upLe_trans (upLe_maxE_left a b) h, upLe_trans (upLe_maxE_right a b) h⟩
  · intro ⟨h1, h2⟩
    rcases maxE_choice a b with h | h <;> rw [h]
    · exact h1
    · exact h2

theorem maxE_assoc (a b c : Bound K) : maxE (maxE a b) c = maxE a (maxE b c) := by
  apply upLe_antisymm
  · rw [maxE_upLe_iff, maxE_upLe_iff]
    exact ⟨⟨upLe_maxE_left a (maxE b c),
      upLe_trans (upLe_maxE_left b c) (upLe_maxE_right a (maxE b c))⟩,
      upLe_trans (upLe_maxE_right b c) (upLe_maxE_right a (maxE b c))⟩
  · rw [maxE_upLe_iff, maxE_upLe_iff]
    exact ⟨upLe_trans (upLe_maxE_left a b) (upLe_maxE_left (maxE a b) c),
      ⟨upLe_trans (upLe_maxE_right a b) (upLe_maxE_left (maxE a b) c),
      upLe_maxE_right (maxE a b) c⟩⟩

theorem maxE_self (a : Bound K) : maxE a a = a := maxE_eq_left (upLe_refl a)

/-- Augmented value stored at the root of a subtree (`Unbounded` for `nil`,
only ever used on non-`nil` subtrees). -/
def nodeVal : Node K → Bound K
  | .nil => Unbounded
  | .node _ v _ _ => v

theorem upLe_valOr (m : Bound K) (c : Node K) : upLe m (valOr m c) := by
  cases c
  · exact upLe_refl m
  · exact upLe_maxE_left _ _

theorem goodVal_mem_upLe : ∀ (n : Node K), goodValB n = true →
    ∀ k ∈ inorder n, upLe (k.2) (nodeVal n) := by
  intro n
  induction n with
  | nil => intro _ k hk; simp [inorder] at hk
  | node key v l r ihl ihr =>
    intro hg k hk
    unfold goodValB at hg
    simp only [Bool.and_eq_true, decide_eq_true_eq] at hg
    obtain ⟨⟨hv, hgl⟩, hgr⟩ := hg
    simp only [inorder, List.mem_append, List.mem_cons] at hk
    have hkey : upLe key.2 v := by
      rw [hv]
      exact upLe_trans (upLe_valOr key.2 l) (upLe_valOr _ r)
    rcases hk with hk | hk | hk
    · have h1 := ihl hgl k hk
      cases l with
      | nil => simp [inorder] at hk
      | node lk lv ll lr =>
        apply upLe_trans h1
        rw [hv]
        exact upLe_trans (upLe_maxE_right key.2 (nodeVal (.node lk lv ll lr)))
          (upLe_valOr _ r)
    · rw [hk]
      exact hkey
    · have h1 := ihr hgr k hk
      cases r with
      | nil => simp [inorder] at hk
      | node rk rv rl rr =>
        apply upLe_trans h1
        rw [hv]
        exact upLe_maxE_right _ _

end UIT

namespace UIT

open Bound

variable {K : Type} [LinearOrder K]

/-- `IntervalTree::default`: the empty tree. -/
def emptyTree : IntervalTree K := ⟨.nil, 0⟩

/-- The tree of the `get_interval_difference` doctest and the §8 scenario. -/
def exDiffTree : IntervalTree ℤ :=
  insert (insert (insert emptyTree (Included 0, Excluded 10)) (Excluded 10, Included 30))
    (Excluded 50, Unbounded)

/-- C7: on an empty tree, after inserting exactly `(Included 0, Excluded 10)`,
`(Excluded 10, Included 30)` and `(Excluded 50, Unbounded)`,
`get_interval_difference (Included (-5), Included 30)` returns exactly
`[(Included (-5), Excluded 0), (Included 10, Included 10)]`, in that order. -/
theorem claim7_difference_scenario :
    get_interval_difference exDiffTree (Included (-5), Included 30) =
      [(Included (-5), Excluded 0), (Included 10, Included 10)] := by
  decide

/-- C8: `contains_point p` coincides with `contains_interval` at the degenerate
range `[p, p]`, and `contains_interval q` holds exactly when
`get_interval_difference q` is the empty list. -/
theorem claim8_contains_relations (t : IntervalTree K) (p : K) (q : Range K) :
    contains_point t p = contains_interval t (Included p, Included p) ∧
    (contains_interval t q = true ↔ get_interval_difference t q = []) := by
  refine ⟨rfl, ?_⟩
  unfold contains_interval
  rw [List.isEmpty_iff]

/-- C9: on a tree with an absent root, `remove_random_leaf` returns `None` and
leaves the tree (root and size counter) unchanged. -/
theorem claim9_remove_empty (coins : List Bool) (t : IntervalTree K)
    (h : t.root = .nil) : remove_random_leaf coins t = (none, t) := by
  unfold remove_random_leaf
  rw [h]

/-- Witness for C9 at the concrete empty tree. -/
theorem claim9_witness :
    (⟨.nil, 0⟩ : IntervalTree ℤ).root = .nil ∧
    remove_random_leaf [] (⟨.nil, 0⟩ : IntervalTree ℤ) = (none, ⟨.nil, 0⟩) :=
  ⟨rfl, claim9_remove_empty [] _ rfl⟩

/-- C10: for any range `r`, `insert r; insert r; remove_random_leaf` on a fresh
tree deterministically removes the single stored node and returns `Some r`
(whatever the random coins), after which iteration yields nothing and any
further `remove_random_leaf` is a `None` no-op, yet `len` is `1` and
`is_empty` is `false`. -/
theorem claim10_duplicate_insert_remove (r : Range K) (coins coins2 : List Bool) :
    remove_random_leaf coins (insert (insert emptyTree r) r) = (some r, ⟨.nil, 1⟩) ∧
    iterAll (⟨.nil, 1⟩ : IntervalTree K) = [] ∧
    remove_random_leaf coins2 (⟨.nil, 1⟩ : IntervalTree K) = (none, ⟨.nil, 1⟩) ∧
    len (⟨.nil, 1⟩ : IntervalTree K) = 1 ∧
    is_empty (⟨.nil, 1⟩ : IntervalTree K) = false := by
  have hroot : insertNode r (Node.node r r.2 .nil .nil) = .node r r.2 .nil .nil := by
    simp only [insertNode, maybe_update_eq_maxE, maxE_self, cmpRange_self]
  have h2 : insert (insert (emptyTree : IntervalTree K) r) r = ⟨.node r r.2 .nil .nil, 2⟩ := by
    show (⟨insertNode r (insertNode r .nil), 2⟩ : IntervalTree K) = _
    rw [show insertNode r (.nil : Node K) = .node r r.2 .nil .nil from rfl, hroot]
  rw [h2]
  exact ⟨rfl, rfl, rfl, rfl, rfl⟩

/-- The two-insert tree `[0, 10)` and `(10, 30]`, where the running contiguous
upper bound `Excluded 10` meets the next overlap's lower bound `Excluded 10`. -/
def exC2Tree : IntervalTree ℤ :=
  insert (insert emptyTree (Included 0, Excluded 10)) (Excluded 10, Included 30)

/-- C2 counterexample: with stored ranges `[0, 10)` and `(10, 30]`, the query
`[-5, 30]` produces overlaps whose first upper bound is `Excluded 10` (the
running contiguous bound) and whose second lower bound is `Excluded 10`, yet
the one-point gap `[10, 10]` DOES appear in `get_interval_difference` — the
code's `Excluded/Excluded` arm fires on equality (`<=` guard), contradicting
the claim that no gap is emitted there. -/
theorem claim2_counterexample :
    get_interval_overlaps exC2Tree (Included (-5), Included 30) =
      [(Included 0, Excluded 10), (Excluded 10, Included 30)] ∧
    (Included (10:ℤ), Included 10) ∈
      get_interval_difference exC2Tree (Included (-5), Included 30) := by
  decide

/-- C2 amended: when the running contiguous upper bound is `Excluded x` and the
next overlap's lower bound is `Excluded x` at the same value `x`, the loop of
`get_interval_difference` emits the one-point gap `(Included x, Included x)`
(the `Excluded/Excluded` arm's guard is `<=`) and continues with the overlap's
upper bound as the new contiguous bound. -/
theorem claim2_amended (x : K) (u : Bound K) (hu : u ≠ Unbounded)
    (rest acc : List (Range K)) :
    diffLoop ((Excluded x, u) :: rest) acc (Excluded x) =
      diffLoop rest (acc ++ [(Included x, Included x)]) u := by
  simp only [diffLoop]
  rw [show gapArm (Excluded x) (Excluded x) = some (Included x, Included x) by
    simp [gapArm]]
  cases u with
  | Included cm => simp [extendArm, lt_irrefl]
  | Excluded cm => simp [extendArm, lt_irrefl]
  | Unbounded => exact absurd rfl hu

/-- Witness for the amended C2 at concrete inputs. -/
theorem claim2_amended_witness :
    (Included (30:ℤ) ≠ Unbounded) ∧
    diffLoop [((Excluded (10:ℤ), Included 30))] [] (Excluded 10) =
      diffLoop [] ([] ++ [(Included 10, Included 10)]) (Included 30) :=
  ⟨by decide, claim2_amended 10 (Included 30) (by decide) [] []⟩

/-- A tree built by four plain insertions, satisfying both §3 invariants:
root `[0, 5]` (augmented `Included 100`), right child `[6, 50]`, left child
`[-10, 10]` (augmented `Included 100`) whose own left child is the leaf
`[-20, 100]`. -/
def exC3Tree : IntervalTree ℤ :=
  insert (insert (insert (insert emptyTree (Included 0, Included 5))
    (Included 6, Included 50)) (Included (-10), Included 10)) (Included (-20), Included 100)

/-- C3 failing input, evaluated: `exC3Tree` satisfies the §3 invariants, and
`remove_random_leaf` descending left (coin `true`) removes the leaf
`[-20, 100]` and decrements the size, but the bubble-up overwrites the root's
augmented value with `new_max = Included 10` even though the untouched right
subtree still holds `Included 50` — afterwards the augmentation invariant is
false and the overlap query `[40, 45]` wrongly returns nothing although the
stored range `[6, 50]` intersects it. -/
theorem claim3_bug_eval :
    goodValB exC3Tree.root = true ∧ bstB exC3Tree.root = true ∧
    (remove_random_leaf [true] exC3Tree).1 = some (Included (-20), Included 100) ∧
    (remove_random_leaf [true] exC3Tree).2.size = 3 ∧
    trueMaxB (remove_random_leaf [true] exC3Tree).2.root = false ∧
    get_interval_overlaps (remove_random_leaf [true] exC3Tree).2
      (Included 40, Included 45) = [] ∧
    (Included (6:ℤ), Included 50) ∈ inorder (remove_random_leaf [true] exC3Tree).2.root := by
  decide

end UIT

namespace UIT

open Bound

variable {K : Type} [LinearOrder K]

/-! ### Insertion: duplicate no-op (C5) and invariant preservation (C6) -/

theorem maxE_comm (a b : Bound K) : maxE a b = maxE b a := by
  apply upLe_antisymm <;> rw [maxE_upLe_iff]
  · exact ⟨upLe_maxE_right b a, upLe_maxE_left b a⟩
  · exact ⟨upLe_maxE_right a b, upLe_maxE_left a b⟩

theorem maxE_right_comm (a b c : Bound K) : maxE (maxE a b) c = maxE (maxE a c) b := by
  rw [maxE_assoc, maxE_assoc, maxE_comm b c]

theorem insertNode_dup_eq : ∀ (n : Node K) (r : Range K), goodValB n = true →
    bstB n = true → r ∈ inorder n → insertNode r n = n := by
  intro n
  induction n with
  | nil => intro r _ _ hr; simp [inorder] at hr
  | node key v l rr ihl ihr =>
    intro r hg hb hr
    have hle : upLe r.2 v := goodVal_mem_upLe _ hg r hr
    unfold goodValB at hg
    unfold bstB at hb
    simp only [Bool.and_eq_true, decide_eq_true_eq, List.all_eq_true] at hg hb
    obtain ⟨⟨hv, hgl⟩, hgr⟩ := hg
    obtain ⟨⟨⟨hbla, hbra⟩, hbl⟩, hbr⟩ := hb
    simp only [inorder, List.mem_append, List.mem_cons] at hr
    simp only [insertNode, maybe_update_eq_maxE, maxE_eq_left hle]
    cases hc : cmpRange key r with
    | eq => rfl
    | lt =>
      have hrr : r ∈ inorder rr := by
        rcases hr with hr | hr | hr
        · have := hbla r hr
          rw [cmpRange_gt_iff.2 hc] at this
          exact absurd this (by simp)
        · rw [hr] at hc
          rw [cmpRange_self] at hc
          exact absurd hc (by simp)
        · exact hr
      rw [ihr r hgr hbr hrr]
    | gt =>
      have hll : r ∈ inorder l := by
        rcases hr with hr | hr | hr
        · exact hr
        · rw [hr] at hc
          rw [cmpRange_self] at hc
          exact absurd hc (by simp)
        · have := hbra r hr
          rw [show cmpRange r key = .lt from cmpRange_gt_iff.1 hc] at this
          exact absurd this (by simp)
      rw [ihl r hgl hbl hll]

/-- C5: on a tree satisfying the §3 invariants, inserting a range already
stored in it increments `len` by exactly one while changing nothing else: the
root and the entire node structure are unchanged. -/
theorem claim5_duplicate_insert (t : IntervalTree K) (r : Range K)
    (hv : goodValB t.root = true) (hb : bstB t.root = true)
    (hr : r ∈ inorder t.root) :
    (insert t r).root = t.root ∧ (insert t r).size = t.size + 1 :=
  ⟨insertNode_dup_eq t.root r hv hb hr, rfl⟩

/-- Witness for C5 at a concrete four-node tree and stored range. -/
theorem claim5_witness :
    goodValB exC3Tree.root = true ∧ bstB exC3Tree.root = true ∧
    (Included (6:ℤ), Included 50) ∈ inorder exC3Tree.root ∧
    (insert exC3Tree (Included 6, Included 50)).root = exC3Tree.root ∧
    (insert exC3Tree (Included 6, Included 50)).size = exC3Tree.size + 1 := by
  have h := claim5_duplicate_insert exC3Tree (Included 6, Included 50)
    (by decide) (by decide) (by decide)
  exact ⟨by decide, by decide, by decide, h.1, h.2⟩

theorem valOr_insertNode (m : Bound K) (r : Range K) (n : Node K) :
    valOr m (insertNode r n) = maxE (valOr m n) r.2 := by
  cases n with
  | nil => rfl
  | node k v l rr =>
    simp only [insertNode, maybe_update_eq_maxE]
    cases hc : cmpRange k r <;> simp [valOr, maxE_assoc]

theorem mem_inorder_insertNode {r x : Range K} : ∀ {n : Node K},
    x ∈ inorder (insertNode r n) → x ∈ inorder n ∨ x = r := by
  intro n
  induction n with
  | nil =>
    intro h
    simp [insertNode, Node.new, inorder] at h
    exact Or.inr h
  | node key v l rr ihl ihr =>
    intro h
    simp only [insertNode, maybe_update_eq_maxE] at h
    cases hc : cmpRange key r <;> rw [hc] at h <;>
      simp only [inorder, List.mem_append, List.mem_cons] at h ⊢
    · rcases h with h | h | h
      · exact Or.inl (Or.inl h)
      · exact Or.inl (Or.inr (Or.inl h))
      · rcases ihr h with h' | h'
        · exact Or.inl (Or.inr (Or.inr h'))
        · exact Or.inr h'
    · rcases h with h | h | h
      · exact Or.inl (Or.inl h)
      · exact Or.inl (Or.inr (Or.inl h))
      · exact Or.inl (Or.inr (Or.inr h))
    · rcases h with h | h | h
      · rcases ihl h with h' | h'
        · exact Or.inl (Or.inl h')
        · exact Or.inr h'
      · exact Or.inl (Or.inr (Or.inl h))
      · exact Or.inl (Or.inr (Or.inr h))

theorem goodValB_insertNode (r : Range K) : ∀ (n : Node K), goodValB n = true →
    goodValB (insertNode r n) = true := by
  intro n
  induction n with
  | nil => intro _; simp [insertNode, Node.new, goodValB, valOr]
  | node key v l rr ihl ihr =>
    intro hg
    unfold goodValB at hg
    simp only [Bool.and_eq_true, decide_eq_true_eq] at hg
    obtain ⟨⟨hv, hgl⟩, hgr⟩ := hg
    simp only [insertNode, maybe_update_eq_maxE]
    cases hc : cmpRange key r with
    | eq =>
      have hkey : key = r := cmpRange_eq_iff.1 hc
      have hle : upLe r.2 v := by
        rw [hv, ← hkey]
        exact upLe_trans (upLe_valOr key.2 l) (upLe_valOr _ rr)
      unfold goodValB
      simp only [Bool.and_eq_true, decide_eq_true_eq]
      exact ⟨⟨by rw [maxE_eq_left hle, hv], hgl⟩, hgr⟩
    | lt =>
      unfold goodValB
      simp only [Bool.and_eq_true, decide_eq_true_eq]
      refine ⟨⟨?_, hgl⟩, ihr hgr⟩
      rw [valOr_insertNode, ← hv]
    | gt =>
      unfold goodValB
      simp only [Bool.and_eq_true, decide_eq_true_eq]
      refine ⟨⟨?_, ihl hgl⟩, hgr⟩
      cases rr with
      | nil =>
        show maxE v r.2 = valOr key.2 (insertNode r l)
        rw [valOr_insertNode, hv]
        rfl
      | node rk rv rl rr2 =>
        show maxE v r.2 = maxE (valOr key.2 (insertNode r l)) rv
        rw [valOr_insertNode, maxE_right_comm, hv]
        rfl

theorem bstB_insertNode (r : Range K) : ∀ (n : Node K), bstB n = true →
    bstB (insertNode r n) = true := by
  intro n
  induction n with
  | nil => intro _; simp [insertNode, Node.new, bstB, inorder]
  | node key v l rr ihl ihr =>
    intro hb
    unfold bstB at hb
    simp only [Bool.and_eq_true, decide_eq_true_eq, List.all_eq_true] at hb
    obtain ⟨⟨⟨hbla, hbra⟩, hbl⟩, hbr⟩ := hb
    simp only [insertNode, maybe_update_eq_maxE]
    cases hc : cmpRange key r with
    | eq =>
      unfold bstB
      simp only [Bool.and_eq_true, decide_eq_true_eq, List.all_eq_true]
      exact ⟨⟨⟨hbla, hbra⟩, hbl⟩, hbr⟩
    | lt =>
      unfold bstB
      simp only [Bool.and_eq_true, decide_eq_true_eq, List.all_eq_true]
      refine ⟨⟨⟨hbla, ?_⟩, hbl⟩, ihr hbr⟩
      intro y hy
      rcases mem_inorder_insertNode hy with h' | h'
      · exact hbra y h'
      · rw [h']
        exact cmpRange_gt_iff.2 hc
    | gt =>
      unfold bstB
      simp only [Bool.and_eq_true, decide_eq_true_eq, List.all_eq_true]
      refine ⟨⟨⟨?_, hbra⟩, ihl hbl⟩, hbr⟩
      intro x hx
      rcases mem_inorder_insertNode hx with h' | h'
      · exact hbla x h'
      · rw [h']
        exact cmpRange_gt_iff.1 hc

/-- C6: insertion preserves both §3 invariants — the augmented value of every
node stays the max (upper-role order) of its own upper bound and its
children's values, and the BST ordering of keys is kept, including when the
inserted range is a duplicate. -/
theorem claim6_insert_preserves_invariants (t : IntervalTree K) (r : Range K)
    (hv : goodValB t.root = true) (hb : bstB t.root = true) :
    goodValB (insert t r).root = true ∧ bstB (insert t r).root = true :=
  ⟨goodValB_insertNode r t.root hv, bstB_insertNode r t.root hb⟩

/-- Witness for C6 at a concrete tree and a fresh range. -/
theorem claim6_witness :
    goodValB exC2Tree.root = true ∧ bstB exC2Tree.root = true ∧
    goodValB (insert exC2Tree (Excluded 40, Included 45)).root = true ∧
    bstB (insert exC2Tree (Excluded 40, Included 45)).root = true := by
  have h := claim6_insert_preserves_invariants exC2Tree (Excluded 40, Included 45)
    (by decide) (by decide)
  exact ⟨by decide, by decide, h.1, h.2⟩

end UIT

namespace UIT

open Bound

variable {K : Type} [LinearOrder K]

/-! ### The inorder iterator (C4) -/

/-- Keys still to be yielded from an iterator stack: each stacked node
contributes its own key followed by its right subtree. -/
def stackRest : List (Node K) → List (Range K)
  | [] => []
  | .nil :: st => stackRest st
  | .node key _ _ r :: st => key :: (inorder r ++ stackRest st)

theorem stackRest_pushLeftSpine (n : Node K) (st : List (Node K)) :
    stackRest (pushLeftSpine n st) = inorder n ++ stackRest st := by
  induction n generalizing st with
  | nil => simp [pushLeftSpine, inorder]
  | node key v l r ihl ihr => simp [pushLeftSpine, inorder, ihl, stackRest]

theorem pushLeftSpine_no_nil (st : List (Node K)) (hst : ∀ x ∈ st, x ≠ Node.nil) :
    ∀ (n : Node K), ∀ x ∈ pushLeftSpine n st, x ≠ Node.nil := by
  intro n
  induction n generalizing st with
  | nil => exact fun x hx => hst x hx
  | node key v l r ihl ihr =>
    intro x hx
    refine ihl (Node.node key v l r :: st) ?_ x hx
    intro y hy
    rcases List.mem_cons.1 hy with h | h
    · rw [h]; simp
    · exact hst y h

theorem length_inorder : ∀ (n : Node K), (inorder n).length = sizeN n := by
  intro n
  induction n with
  | nil => rfl
  | node key v l r ihl ihr => simp [inorder, sizeN, ihl, ihr]; omega

theorem iterFuel_spec : ∀ (fuel : Nat) (it : IntervalTreeIter K),
    (∀ x ∈ it.to_visit, x ≠ Node.nil) →
    (inorder it.curr ++ stackRest it.to_visit).length ≤ fuel →
    iterFuel fuel it = inorder it.curr ++ stackRest it.to_visit := by
  intro fuel
  induction fuel with
  | zero =>
    intro it _ hlen
    rw [Nat.le_zero, List.length_eq_zero] at hlen
    rw [hlen]
    rfl
  | succ fuel ih =>
    intro it hst hlen
    have hrem : inorder it.curr ++ stackRest it.to_visit =
        stackRest (pushLeftSpine it.curr it.to_visit) :=
      (stackRest_pushLeftSpine it.curr it.to_visit).symm
    have hnn := pushLeftSpine_no_nil it.to_visit hst it.curr
    unfold iterFuel IntervalTreeIter.next
    cases hp : pushLeftSpine it.curr it.to_visit with
    | nil =>
      rw [hrem, hp]
      rfl
    | cons n rest =>
      cases n with
      | nil =>
        exact absurd rfl (hnn Node.nil (hp ▸ List.mem_cons_self _ _))
      | node key v l r =>
        have hrem2 : inorder it.curr ++ stackRest it.to_visit =
            key :: (inorder r ++ stackRest rest) := by
          rw [hrem, hp, stackRest]
        have hnn2 : ∀ x ∈ rest, x ≠ Node.nil := fun x hx =>
          hnn x (hp ▸ List.mem_cons_of_mem _ hx)
        have hlen2 : (inorder r ++ stackRest rest).length ≤ fuel := by
          rw [hrem2] at hlen
          rw [List.length_cons] at hlen
          omega
        show key :: iterFuel fuel ⟨rest, r⟩ = inorder it.curr ++ stackRest it.to_visit
        rw [hrem2, ih ⟨rest, r⟩ hnn2 hlen2]

theorem iterAll_eq_inorder (t : IntervalTree K) : iterAll t = inorder t.root := by
  unfold iterAll
  have h := iterFuel_spec (sizeN t.root) ⟨[], t.root⟩ (by simp)
    (by simp [stackRest, length_inorder])
  simpa [stackRest] using h

theorem pairwise_inorder : ∀ (n : Node K), bstB n = true →
    (inorder n).Pairwise (fun a b => cmpRange a b = .lt) := by
  intro n
  induction n with
  | nil => intro _; simp [inorder]
  | node key v l r ihl ihr =>
    intro hb
    unfold bstB at hb
    simp only [Bool.and_eq_true, decide_eq_true_eq, List.all_eq_true] at hb
    obtain ⟨⟨⟨hbla, hbra⟩, hbl⟩, hbr⟩ := hb
    rw [inorder, List.pairwise_append]
    refine ⟨ihl hbl, ?_, ?_⟩
    · rw [List.pairwise_cons]
      exact ⟨fun y hy => cmpRange_gt_iff.1 (hbra y hy), ihr hbr⟩
    · intro x hx y hy
      rcases List.mem_cons.1 hy with h | h
      · rw [h]
        exact hbla x hx
      · exact cmpRange_lt_trans (hbla x hx) (cmpRange_gt_iff.1 (hbra y h))

/-- The tree obtained by inserting the same range twice: one stored node but
`size = 2`. -/
def dupTree : IntervalTree ℤ :=
  insert (insert emptyTree (Included 0, Included 0)) (Included 0, Included 0)

/-- C4 counterexample: `dupTree` is reachable by two public `insert` calls, its
inorder iterator yields exactly one element, but `len` reports `2`. -/
theorem claim4_counterexample :
    iterAll dupTree = [(Included 0, Included 0)] ∧ len dupTree = 2 := by
  decide

/-- C4 amended: for every tree whose root satisfies the BST invariant, the
inorder iterator yields exactly the stored ranges in strictly increasing Range
order, and the number of elements it yields equals the number of stored nodes
— which can be smaller than `len()`, since duplicate insertions bump the size
counter without adding a node. -/
theorem claim4_amended (t : IntervalTree K) (hb : bstB t.root = true) :
    iterAll t = inorder t.root ∧
    (iterAll t).Pairwise (fun a b => cmpRange a b = .lt) ∧
    (iterAll t).length = sizeN t.root := by
  refine ⟨iterAll_eq_inorder t, ?_, ?_⟩
  · rw [iterAll_eq_inorder t]
    exact pairwise_inorder t.root hb
  · rw [iterAll_eq_inorder t]
    exact length_inorder t.root

/-- Witness for the amended C4 at a concrete three-node tree. -/
theorem claim4_amended_witness :
    bstB exDiffTree.root = true ∧
    (iterAll exDiffTree = inorder exDiffTree.root ∧
     (iterAll exDiffTree).Pairwise (fun a b => cmpRange a b = .lt) ∧
     (iterAll exDiffTree).length = sizeN exDiffTree.root) :=
  ⟨by decide, claim4_amended exDiffTree (by decide)⟩

end UIT

namespace UIT

open Bound

variable {K : Type} [LinearOrder K]

/-! ### Overlap query (C1) -/

/-- The membership test `get_interval_overlaps_rec` applies to a stored key:
neither `node.min > q.max` (first guard) nor `node.max < q.min` (second). -/
def overlapB (k q : Range K) : Bool := !min_gt_max k.1 q.2 && !max_lt_min k.2 q.1

theorem max_lt_min_iff {e lo : Bound K} : max_lt_min e lo = true ↔
    ∃ pe pl, encUp e = some pe ∧ encLo3 lo = some pl ∧ lexLt pe pl := by
  unfold max_lt_min
  cases he : encUp e <;> cases hl : encLo3 lo <;> simp [pairLt_iff]

theorem min_gt_max_iff {lo e : Bound K} : min_gt_max lo e = true ↔
    ∃ pl pe, encLo3 lo = some pl ∧ encUp e = some pe ∧ lexLt pe pl := by
  unfold min_gt_max
  cases hl : encLo3 lo <;> cases he : encUp e <;> simp [pairLt_iff]

theorem max_lt_min_of_upLe {a b m : Bound K} (h1 : upLe a b)
    (h2 : max_lt_min b m = true) : max_lt_min a m = true := by
  rw [max_lt_min_iff] at h2 ⊢
  obtain ⟨pb, pm, hb, hm, hlt⟩ := h2
  unfold upLe cmp_endbound cmpOptHi at h1
  rw [hb] at h1
  cases ha : encUp a with
  | none => rw [ha] at h1; exact absurd rfl h1
  | some pa =>
    rw [ha] at h1
    refine ⟨pa, pm, rfl, hm, ?_⟩
    exact lexLt_of_not_lt_of_lt (fun hlt2 => h1 (cmpProd_eq_gt.2 hlt2)) hlt

theorem encLo3_eq_map (x : Bound K) :
    encLo3 x = (encLo x).map (fun p => (p.1, p.2 + 1)) := by
  cases x <;> rfl

theorem lexLt_shift_right (p q : K × Nat) :
    lexLt p (q.1, q.2 + 1) → ∀ s, ¬ lexLt s q → lexLt p (s.1, s.2 + 1) := by
  intro h1 s h2
  unfold lexLt at *
  rcases h1 with h1 | ⟨h1, h1'⟩
  · by_cases hqs : q.1 < s.1
    · exact Or.inl (h1.trans hqs)
    · have hqs' : q.1 = s.1 := by
        rcases lt_trichotomy q.1 s.1 with h | h | h
        · exact absurd h hqs
        · exact h
        · exact absurd (Or.inl h) h2
      exact Or.inl (hqs' ▸ h1)
  · by_cases hqs : q.1 < s.1
    · exact Or.inl (h1 ▸ hqs)
    · have hqs' : q.1 = s.1 := by
        rcases lt_trichotomy q.1 s.1 with h | h | h
        · exact absurd h hqs
        · exact h
        · exact absurd (Or.inl h) h2
      have hs2 : q.2 ≤ s.2 := by
        by_contra hc
        exact h2 (Or.inr ⟨hqs'.symm, Nat.lt_of_not_le hc⟩)
      exact Or.inr ⟨h1.trans hqs', by omega⟩

theorem min_gt_max_of_loLe {a b m : Bound K} (h1 : loLe a b)
    (h2 : min_gt_max a m = true) : min_gt_max b m = true := by
  rw [min_gt_max_iff] at h2 ⊢
  obtain ⟨pa3, pm, ha3, hm, hlt⟩ := h2
  unfold loLe cmp_lowbound cmpOptLo at h1
  rw [encLo3_eq_map] at ha3
  cases ha : encLo a with
  | none => rw [ha] at ha3; exact absurd ha3 (by simp)
  | some pa =>
    rw [ha] at h1 ha3
    have ha3' : (pa.1, pa.2 + 1) = pa3 := Option.some.inj ha3
    cases hb : encLo b with
    | none => rw [hb] at h1; exact absurd rfl h1
    | some pb =>
      rw [hb] at h1
      refine ⟨(pb.1, pb.2 + 1), pm, ?_, hm, ?_⟩
      · rw [encLo3_eq_map, hb]
        rfl
      · have hnlt : ¬ lexLt pb pa := fun hlt2 => h1 (cmpProd_eq_gt.2 hlt2)
        exact lexLt_shift_right pm pa (ha3' ▸ hlt) pb hnlt

theorem loLe_left_of_cmpRange_gt {y k : Range K} (h : cmpRange y k = .gt) :
    loLe k.1 y.1 := by
  rw [cmpRange_gt_char] at h
  rw [loLe_iff]
  rcases h with h | ⟨h, -⟩
  · exact loLt_asymm h
  · rw [h]; exact loLt_irrefl _

theorem overlaps_rec_eq (q : Range K) : ∀ (n : Node K) (acc : List (Range K)),
    goodValB n = true → bstB n = true →
    get_interval_overlaps_rec q n acc =
      acc ++ (inorder n).filter (fun k => overlapB k q) := by
  intro n
  induction n with
  | nil => intro acc _ _; simp [get_interval_overlaps_rec, inorder]
  | node key v l r ihl ihr =>
    intro acc hg hb
    have hgmem := goodVal_mem_upLe _ hg
    unfold goodValB at hg
    unfold bstB at hb
    simp only [Bool.and_eq_true, decide_eq_true_eq, List.all_eq_true] at hg hb
    obtain ⟨⟨hv, hgl⟩, hgr⟩ := hg
    obtain ⟨⟨⟨hbla, hbra⟩, hbl⟩, hbr⟩ := hb
    simp only [get_interval_overlaps_rec]
    by_cases hprune : max_lt_min v q.1 = true
    · rw [if_pos hprune]
      have hfilter : (inorder (Node.node key v l r)).filter (fun k => overlapB k q) = [] := by
        rw [List.filter_eq_nil]
        intro k hk
        have hml : max_lt_min k.2 q.1 = true :=
          max_lt_min_of_upLe (hgmem k hk) hprune
        simp [overlapB, hml]
      rw [hfilter, List.append_nil]
    · rw [if_neg hprune, ihl acc hgl hbl]
      by_cases hskip : min_gt_max key.1 q.2 = true
      · rw [if_pos hskip]
        have hnode : overlapB key q = false := by simp [overlapB, hskip]
        have hright : (inorder r).filter (fun k => overlapB k q) = [] := by
          rw [List.filter_eq_nil]
          intro k hk
          have hmg := min_gt_max_of_loLe (loLe_left_of_cmpRange_gt (hbra k hk)) hskip
          simp [overlapB, hmg]
        rw [inorder, List.filter_append, List.filter_cons, hright]
        simp [hnode]
      · rw [if_neg hskip, ihr _ hgr hbr]
        rw [inorder, List.filter_append, List.filter_cons]
        by_cases hpush : max_lt_min key.2 q.1 = true
        · rw [if_pos hpush]
          have hnode : overlapB key q = false := by simp [overlapB, hpush]
          simp [hnode]
        · rw [if_neg hpush]
          have hnode : overlapB key q = true := by
            rw [overlapB]
            simp only [Bool.and_eq_true, Bool.not_eq_true']
            exact ⟨Bool.not_eq_true _ ▸ hskip, Bool.not_eq_true _ ▸ hpush⟩
          simp [hnode]

end UIT

namespace UIT

open Bound

variable {K : Type} [LinearOrder K]

theorem min_gt_max_false_iff {lo hi : Bound K} :
    min_gt_max lo hi = false ↔ lowLeUp lo hi := by
  cases lo <;> cases hi <;>
    simp [min_gt_max, encLo3, encUp, pairLt, lowLeUp, not_lt, not_le, not_or]
  · exact ⟨fun ⟨h1, h2⟩ => lt_of_le_of_ne h1 (Ne.symm h2), fun h => ⟨h.le, h.ne'⟩⟩
  · exact ⟨fun ⟨h1, h2⟩ => lt_of_le_of_ne h1 (Ne.symm h2), fun h => ⟨h.le, h.ne'⟩⟩
  · exact ⟨fun ⟨h1, h2⟩ => lt_of_le_of_ne h1 (Ne.symm h2), fun h => ⟨h.le, h.ne'⟩⟩

theorem max_lt_min_false_iff {hi lo : Bound K} :
    max_lt_min hi lo = false ↔ lowLeUp lo hi := by
  cases hi <;> cases lo <;>
    simp [max_lt_min, encLo3, encUp, pairLt, lowLeUp, not_lt, not_le, not_or]
  · exact ⟨fun ⟨h1, h2⟩ => lt_of_le_of_ne h1 (fun he => h2 he.symm), fun h => ⟨h.le, h.ne'⟩⟩
  · exact ⟨fun ⟨h1, h2⟩ => lt_of_le_of_ne h1 (fun he => h2 he.symm), fun h => ⟨h.le, h.ne'⟩⟩
  · exact ⟨fun ⟨h1, h2⟩ => lt_of_le_of_ne h1 (fun he => h2 he.symm), fun h => ⟨h.le, h.ne'⟩⟩

theorem overlapB_iff_overlapSpec {k q : Range K} :
    overlapB k q = true ↔ overlapSpec k q := by
  rw [overlapB, overlapSpec, Bool.and_eq_true, Bool.not_eq_true', Bool.not_eq_true',
    min_gt_max_false_iff, max_lt_min_false_iff]

theorem overlapB_eq_decide (k q : Range K) :
    overlapB k q = decide (overlapSpec k q) := by
  by_cases h : overlapSpec k q
  · rw [overlapB_iff_overlapSpec.2 h, decide_eq_true h]
  · rw [decide_eq_false h, ← Bool.not_eq_true]
    exact fun hc => h (overlapB_iff_overlapSpec.1 hc)

/-- C1: on a tree satisfying the §3 invariants, `get_interval_overlaps`
returns exactly the stored ranges whose intersection with the query is
non-empty under the §4.1 endpoint encoding (`k.lower ≤ q.upper` and
`q.lower ≤ k.upper` with the ±ε reading of `Excluded`), as the subsequence of
the inorder traversal they form — so no overlapping range is lost to the
subtree-max or right-subtree prunes, no non-overlapping range is included,
and the output is strictly ascending in the Range order. -/
theorem claim1_overlaps_exact (t : IntervalTree K) (q : Range K)
    (hv : goodValB t.root = true) (hb : bstB t.root = true) :
    get_interval_overlaps t q =
      (inorder t.root).filter (fun k => decide (overlapSpec k q)) ∧
    (get_interval_overlaps t q).Pairwise (fun a b => cmpRange a b = .lt) := by
  have heq : get_interval_overlaps t q =
      (inorder t.root).filter (fun k => overlapB k q) := by
    rw [get_interval_overlaps, overlaps_rec_eq q t.root [] hv hb, List.nil_append]
  have heq2 : get_interval_overlaps t q =
      (inorder t.root).filter (fun k => decide (overlapSpec k q)) := by
    rw [heq]
    exact List.filter_congr (fun k _ => overlapB_eq_decide k q)
  refine ⟨heq2, ?_⟩
  rw [heq]
  exact List.Pairwise.filter _ (pairwise_inorder t.root hb)

/-- Witness for C1 at a concrete four-node tree and query. -/
theorem claim1_witness :
    goodValB exC3Tree.root = true ∧ bstB exC3Tree.root = true ∧
    (get_interval_overlaps exC3Tree (Included 7, Included 20) =
      (inorder exC3Tree.root).filter
        (fun k => decide (overlapSpec k (Included 7, Included 20))) ∧
    (get_interval_overlaps exC3Tree (Included 7, Included 20)).Pairwise
      (fun a b => cmpRange a b = .lt)) :=
  ⟨by decide, by decide,
    claim1_overlaps_exact exC3Tree (Included 7, Included 20) (by decide) (by decide)⟩

end UIT
